import Mathlib

/-!
Verification of the LetterPaths path-normalization core.

Shallow embedding of the geometry code of `svg_utils.py`, `shape.py`,
`json_generator.py`, `index.py` and `dotted.py`.  Coordinates are modelled
as exact rationals (the Python code computes with IEEE doubles; every claim
is stated up to floating-point tolerance, which exact arithmetic refines).
Outlines enter the code as SVG command strings and are parsed by the
external `svgpathtools.parse_path` into a list of line / quadratic /
cubic segments; the embedding starts at that parsed representation.
Failures (Python `ValueError` on `min([])`, `ZeroDivisionError` on
division by a zero extent) are modelled by `Option`: `none` means the
Python code raises instead of returning a value.
-/

set_option autoImplicit false

namespace LetterPaths

/-- Plane point, coordinates in outline / canvas / normalized space. -/
abbrev Point : Type := ℚ × ℚ

/-- Curve segment as produced by `svgpathtools.parse_path` for the
M/L/Q/C/Z command vocabulary emitted by `SVGPathPen`. -/
inductive Segment : Type where
  | line  : Point → Point → Segment
  | quad  : Point → Point → Point → Segment
  | cubic : Point → Point → Point → Point → Segment
deriving DecidableEq, Repr

/-- Control points of a segment, in the order of `seg.bpoints()`. -/
def bpoints : Segment → List Point
  | .line a b => [a, b]
  | .quad a b c => [a, b, c]
  | .cubic a b c d => [a, b, c, d]

/-- Start point of a segment (`seg.start`). -/
def segStart : Segment → Point
  | .line a _ => a
  | .quad a _ _ => a
  | .cubic a _ _ _ => a

/-- End point of a segment (`seg.end`). -/
def segEnd : Segment → Point
  | .line _ b => b
  | .quad _ _ c => c
  | .cubic _ _ _ d => d

/-- Map a point transformation over the control points of a segment;
for affine maps this is exactly how `svgpathtools` implements
`scaled` / `translated` on lines and Bezier segments. -/
def mapSeg (f : Point → Point) : Segment → Segment
  | .line a b => .line (f a) (f b)
  | .quad a b c => .quad (f a) (f b) (f c)
  | .cubic a b c d => .cubic (f a) (f b) (f c) (f d)

/-- `seg.scaled(sx, sy)`: coordinatewise scaling about the origin. -/
def scalePoint (sx sy : ℚ) (p : Point) : Point := (sx * p.1, sy * p.2)

/-- `seg.translated(complex(dx, dy))`. -/
def translatePoint (dx dy : ℚ) (p : Point) : Point := (p.1 + dx, p.2 + dy)

def scaleSeg (sx sy : ℚ) : Segment → Segment := mapSeg (scalePoint sx sy)

def translateSeg (dx dy : ℚ) : Segment → Segment := mapSeg (translatePoint dx dy)

/-- General affine point map `(x, y) ↦ (a x + c, b y + d)`: the composite
of `scaled(a, b)` followed by `translated(c + d i)`. -/
def affPoint (a b c d : ℚ) (p : Point) : Point := (a * p.1 + c, b * p.2 + d)

/-- All control points of a path, in traversal order: the `xs`/`ys`
collection loop of `get_global_bbox` (svg_utils.py lines 12-16). -/
def allPoints : List Segment → List Point
  | [] => []
  | s :: rest => bpoints s ++ allPoints rest

/-- Left fold of `min`, the meaning of the Python builtin `min` on a
nonempty list with first element `x` and tail `l`. -/
def minChain (x : ℚ) : List ℚ → ℚ
  | [] => x
  | y :: l => minChain (min x y) l

/-- Left fold of `max` (the Python builtin `max`). -/
def maxChain (x : ℚ) : List ℚ → ℚ
  | [] => x
  | y :: l => maxChain (max x y) l

/-- Bounding box `(x_min, x_max, y_min, y_max)` as returned by
`get_global_bbox` (svg_utils.py lines 7-17). -/
@[ext]
structure BBox : Type where
  xMin : ℚ
  xMax : ℚ
  yMin : ℚ
  yMax : ℚ
deriving DecidableEq, Repr

def bboxW (b : BBox) : ℚ := b.xMax - b.xMin

def bboxH (b : BBox) : ℚ := b.yMax - b.yMin

/-- Bounding box of a point list: `min(xs), max(xs), min(ys), max(ys)`.
On an empty list the Python `min([])` raises `ValueError`, modelled by
`none`. -/
def bboxOfPoints : List Point → Option BBox
  | [] => none
  | p :: ps =>
    some { xMin := minChain p.1 (ps.map Prod.fst)
         , xMax := maxChain p.1 (ps.map Prod.fst)
         , yMin := minChain p.2 (ps.map Prod.snd)
         , yMax := maxChain p.2 (ps.map Prod.snd) }

/-- `get_global_bbox(path)` (svg_utils.py lines 7-17): min/max over all
control points of all segments. -/
def getGlobalBbox (segs : List Segment) : Option BBox :=
  bboxOfPoints (allPoints segs)

/-! ### Fold lemmas for the bounding box -/

theorem minChain_le_head (x : ℚ) (l : List ℚ) : minChain x l ≤ x := by
  induction l generalizing x with
  | nil => exact le_refl x
  | cons y l ih =>
    exact le_trans (ih (min x y)) (min_le_left x y)

theorem minChain_le_mem (x : ℚ) (l : List ℚ) :
    ∀ y ∈ l, minChain x l ≤ y := by
  induction l generalizing x with
  | nil => intro y hy; cases hy
  | cons z l ih =>
    intro y hy
    rcases List.mem_cons.mp hy with h | h
    · subst h
      exact le_trans (minChain_le_head (min x y) l) (min_le_right x y)
    · exact ih (min x z) y h

theorem head_le_maxChain (x : ℚ) (l : List ℚ) : x ≤ maxChain x l := by
  induction l generalizing x with
  | nil => exact le_refl x
  | cons y l ih =>
    exact le_trans (le_max_left x y) (ih (max x y))

theorem mem_le_maxChain (x : ℚ) (l : List ℚ) :
    ∀ y ∈ l, y ≤ maxChain x l := by
  induction l generalizing x with
  | nil => intro y hy; cases hy
  | cons z l ih =>
    intro y hy
    rcases List.mem_cons.mp hy with h | h
    · subst h
      exact le_trans (le_max_right x y) (head_le_maxChain (max x y) l)
    · exact ih (max x z) y h

theorem minChain_le_maxChain (x : ℚ) (l : List ℚ) :
    minChain x l ≤ maxChain x l :=
  le_trans (minChain_le_head x l) (head_le_maxChain x l)

theorem min_affine_of_nonneg {a : ℚ} (c x y : ℚ) (ha : 0 ≤ a) :
    min (a * x + c) (a * y + c) = a * min x y + c := by
  rcases le_total x y with h | h
  · rw [min_eq_left h, min_eq_left]
    exact add_le_add_right (mul_le_mul_of_nonneg_left h ha) c
  · rw [min_eq_right h, min_eq_right]
    exact add_le_add_right (mul_le_mul_of_nonneg_left h ha) c

theorem max_affine_of_nonneg {a : ℚ} (c x y : ℚ) (ha : 0 ≤ a) :
    max (a * x + c) (a * y + c) = a * max x y + c := by
  rcases le_total x y with h | h
  · rw [max_eq_right h, max_eq_right]
    exact add_le_add_right (mul_le_mul_of_nonneg_left h ha) c
  · rw [max_eq_left h, max_eq_left]
    exact add_le_add_right (mul_le_mul_of_nonneg_left h ha) c

theorem min_affine_of_nonpos {a : ℚ} (c x y : ℚ) (ha : a ≤ 0) :
    min (a * x + c) (a * y + c) = a * max x y + c := by
  rcases le_total x y with h | h
  · rw [max_eq_right h, min_eq_right]
    exact add_le_add_right (mul_le_mul_of_nonpos_left h ha) c
  · rw [max_eq_left h, min_eq_left]
    exact add_le_add_right (mul_le_mul_of_nonpos_left h ha) c

theorem max_affine_of_nonpos {a : ℚ} (c x y : ℚ) (ha : a ≤ 0) :
    max (a * x + c) (a * y + c) = a * min x y + c := by
  rcases le_total x y with h | h
  · rw [min_eq_left h, max_eq_left]
    exact add_le_add_right (mul_le_mul_of_nonpos_left h ha) c
  · rw [min_eq_right h, max_eq_right]
    exact add_le_add_right (mul_le_mul_of_nonpos_left h ha) c

theorem minChain_map_affine {a : ℚ} (c : ℚ) (ha : 0 ≤ a) (x : ℚ) (l : List ℚ) :
    minChain (a * x + c) (l.map fun v => a * v + c) = a * minChain x l + c := by
  induction l generalizing x with
  | nil => rfl
  | cons y l ih =>
    simp only [List.map_cons, minChain]
    rw [min_affine_of_nonneg c x y ha, ih]

theorem maxChain_map_affine {a : ℚ} (c : ℚ) (ha : 0 ≤ a) (x : ℚ) (l : List ℚ) :
    maxChain (a * x + c) (l.map fun v => a * v + c) = a * maxChain x l + c := by
  induction l generalizing x with
  | nil => rfl
  | cons y l ih =>
    simp only [List.map_cons, maxChain]
    rw [max_affine_of_nonneg c x y ha, ih]

theorem minChain_map_affine_neg {a : ℚ} (c : ℚ) (ha : a ≤ 0) (x : ℚ) (l : List ℚ) :
    minChain (a * x + c) (l.map fun v => a * v + c) = a * maxChain x l + c := by
  induction l generalizing x with
  | nil => rfl
  | cons y l ih =>
    simp only [List.map_cons, minChain, maxChain]
    rw [min_affine_of_nonpos c x y ha, ih]

theorem maxChain_map_affine_neg {a : ℚ} (c : ℚ) (ha : a ≤ 0) (x : ℚ) (l : List ℚ) :
    maxChain (a * x + c) (l.map fun v => a * v + c) = a * minChain x l + c := by
  induction l generalizing x with
  | nil => rfl
  | cons y l ih =>
    simp only [List.map_cons, maxChain, minChain]
    rw [max_affine_of_nonpos c x y ha, ih]

/-! ### Bounding boxes of affinely transformed paths -/

theorem bpoints_mapSeg (f : Point → Point) (s : Segment) :
    bpoints (mapSeg f s) = (bpoints s).map f := by
  cases s <;> rfl

theorem allPoints_map (f : Point → Point) (segs : List Segment) :
    allPoints (segs.map (mapSeg f)) = (allPoints segs).map f := by
  induction segs with
  | nil => rfl
  | cons s rest ih =>
    simp [allPoints, bpoints_mapSeg, ih]

theorem translateSeg_scaleSeg (sx sy dx dy : ℚ) (s : Segment) :
    translateSeg dx dy (scaleSeg sx sy s) = mapSeg (affPoint sx sy dx dy) s := by
  cases s <;> rfl

theorem getGlobalBbox_map_pos {a b : ℚ} (c d : ℚ) (ha : 0 ≤ a) (hb : 0 ≤ b)
    (segs : List Segment) (bb : BBox) (h : getGlobalBbox segs = some bb) :
    getGlobalBbox (segs.map (mapSeg (affPoint a b c d))) =
      some ⟨a * bb.xMin + c, a * bb.xMax + c, b * bb.yMin + d, b * bb.yMax + d⟩ := by
  unfold getGlobalBbox at h ⊢
  rw [allPoints_map]
  cases hap : allPoints segs with
  | nil => rw [hap] at h; simp [bboxOfPoints] at h
  | cons p ps =>
    rw [hap] at h
    simp only [bboxOfPoints, Option.some.injEq] at h
    subst h
    have hx : (ps.map (affPoint a b c d)).map Prod.fst =
        (ps.map Prod.fst).map (fun v => a * v + c) := by
      simp only [List.map_map]; rfl
    have hy : (ps.map (affPoint a b c d)).map Prod.snd =
        (ps.map Prod.snd).map (fun v => b * v + d) := by
      simp only [List.map_map]; rfl
    simp only [List.map_cons, bboxOfPoints, Option.some.injEq, hx, hy]
    refine BBox.ext ?_ ?_ ?_ ?_
    · exact minChain_map_affine c ha p.1 (ps.map Prod.fst)
    · exact maxChain_map_affine c ha p.1 (ps.map Prod.fst)
    · exact minChain_map_affine d hb p.2 (ps.map Prod.snd)
    · exact maxChain_map_affine d hb p.2 (ps.map Prod.snd)

theorem getGlobalBbox_map_flip {a b : ℚ} (c d : ℚ) (ha : 0 ≤ a) (hb : b ≤ 0)
    (segs : List Segment) (bb : BBox) (h : getGlobalBbox segs = some bb) :
    getGlobalBbox (segs.map (mapSeg (affPoint a b c d))) =
      some ⟨a * bb.xMin + c, a * bb.xMax + c, b * bb.yMax + d, b * bb.yMin + d⟩ := by
  unfold getGlobalBbox at h ⊢
  rw [allPoints_map]
  cases hap : allPoints segs with
  | nil => rw [hap] at h; simp [bboxOfPoints] at h
  | cons p ps =>
    rw [hap] at h
    simp only [bboxOfPoints, Option.some.injEq] at h
    subst h
    have hx : (ps.map (affPoint a b c d)).map Prod.fst =
        (ps.map Prod.fst).map (fun v => a * v + c) := by
      simp only [List.map_map]; rfl
    have hy : (ps.map (affPoint a b c d)).map Prod.snd =
        (ps.map Prod.snd).map (fun v => b * v + d) := by
      simp only [List.map_map]; rfl
    simp only [List.map_cons, bboxOfPoints, Option.some.injEq, hx, hy]
    refine BBox.ext ?_ ?_ ?_ ?_
    · exact minChain_map_affine c ha p.1 (ps.map Prod.fst)
    · exact maxChain_map_affine c ha p.1 (ps.map Prod.fst)
    · exact minChain_map_affine_neg d hb p.2 (ps.map Prod.snd)
    · exact maxChain_map_affine_neg d hb p.2 (ps.map Prod.snd)

theorem mem_bbox (segs : List Segment) (bb : BBox) (h : getGlobalBbox segs = some bb) :
    ∀ q ∈ allPoints segs,
      bb.xMin ≤ q.1 ∧ q.1 ≤ bb.xMax ∧ bb.yMin ≤ q.2 ∧ q.2 ≤ bb.yMax := by
  unfold getGlobalBbox at h
  cases hap : allPoints segs with
  | nil => rw [hap] at h; simp [bboxOfPoints] at h
  | cons p ps =>
    rw [hap] at h
    simp only [bboxOfPoints, Option.some.injEq] at h
    subst h
    intro q hq
    rcases List.mem_cons.mp hq with rfl | hq
    · exact ⟨minChain_le_head _ _, head_le_maxChain _ _,
             minChain_le_head _ _, head_le_maxChain _ _⟩
    · exact ⟨minChain_le_mem _ _ _ (List.mem_map_of_mem Prod.fst hq),
             mem_le_maxChain _ _ _ (List.mem_map_of_mem Prod.fst hq),
             minChain_le_mem _ _ _ (List.mem_map_of_mem Prod.snd hq),
             mem_le_maxChain _ _ _ (List.mem_map_of_mem Prod.snd hq)⟩

theorem bbox_min_le_max (segs : List Segment) (bb : BBox)
    (h : getGlobalBbox segs = some bb) :
    bb.xMin ≤ bb.xMax ∧ bb.yMin ≤ bb.yMax := by
  unfold getGlobalBbox at h
  cases hap : allPoints segs with
  | nil => rw [hap] at h; simp [bboxOfPoints] at h
  | cons p ps =>
    rw [hap] at h
    simp only [bboxOfPoints, Option.some.injEq] at h
    subst h
    exact ⟨minChain_le_maxChain _ _, minChain_le_maxChain _ _⟩

/-! ### The normalization transform (`normalize_glyph_path`, svg_utils.py) -/

/-- Step 2 of `normalize_glyph_path` (svg_utils.py line 38):
`original.scaled(1, -1).translated(complex(0, y_min + y_max))`, with
`(x_min, x_max, y_min, y_max)` the global bounding box of the input. -/
def flipStep (segs : List Segment) (b0 : BBox) : List Segment :=
  segs.map (fun s => translateSeg 0 (b0.yMin + b0.yMax) (scaleSeg 1 (-1) s))

/-- Step 4 (line 46): `scale = min(target_size / w, target_size / h)`,
computed from the bounding box of the flipped path. -/
def normScale (bf : BBox) (T : ℚ) : ℚ := min (T / bboxW bf) (T / bboxH bf)

/-- Step 5 (line 49): `tx = -xf_min * scale + (target_size - w * scale) / 2`. -/
def normTx (bf : BBox) (T : ℚ) : ℚ :=
  -bf.xMin * normScale bf T + (T - bboxW bf * normScale bf T) / 2

/-- Step 5 (line 50): `ty = -yf_min * scale + (target_size - h * scale) / 2`. -/
def normTy (bf : BBox) (T : ℚ) : ℚ :=
  -bf.yMin * normScale bf T + (T - bboxH bf * normScale bf T) / 2

/-- `normalize_glyph_path(raw_commands, target_size)` (svg_utils.py lines
20-55), starting from the parsed segment list.  A zero-width or
zero-height flipped bounding box makes the Python float division
`target_size / w` (or `/ h`) raise `ZeroDivisionError`; an empty outline
makes `get_global_bbox` raise; both are modelled by `none`. -/
def normalizeGlyphPath (segs : List Segment) (T : ℚ) :
    Option (List Segment × ℚ × ℚ × ℚ) :=
  match getGlobalBbox segs with
  | none => none
  | some b0 =>
    let flipped := flipStep segs b0
    match getGlobalBbox flipped with
    | none => none
    | some bf =>
      if bboxW bf = 0 ∨ bboxH bf = 0 then none
      else
        some (flipped.map (fun s =>
                translateSeg (normTx bf T) (normTy bf T)
                  (scaleSeg (normScale bf T) (normScale bf T) s)),
              normScale bf T, normTx bf T, normTy bf T)

/-- The flip step leaves the control-point bounding box unchanged:
flipping about the axis and translating by `y_min + y_max` maps the
y-range `[y_min, y_max]` onto itself. -/
theorem bbox_flipStep (segs : List Segment) (b0 : BBox)
    (h : getGlobalBbox segs = some b0) :
    getGlobalBbox (flipStep segs b0) = some b0 := by
  have hfl : flipStep segs b0 =
      segs.map (mapSeg (affPoint 1 (-1) 0 (b0.yMin + b0.yMax))) := by
    unfold flipStep
    simp only [translateSeg_scaleSeg]
  rw [hfl, getGlobalBbox_map_flip 0 (b0.yMin + b0.yMax)
        (by norm_num) (by norm_num) segs b0 h]
  congr 1
  refine BBox.ext ?_ ?_ ?_ ?_ <;> simp

/-- Unfolding of `normalize_glyph_path` on a nondegenerate outline. -/
theorem normalizeGlyphPath_eq (segs : List Segment) (b0 : BBox) (T : ℚ)
    (h : getGlobalBbox segs = some b0) (hw : bboxW b0 ≠ 0) (hh : bboxH b0 ≠ 0) :
    normalizeGlyphPath segs T =
      some ((flipStep segs b0).map (fun s =>
              translateSeg (normTx b0 T) (normTy b0 T)
                (scaleSeg (normScale b0 T) (normScale b0 T) s)),
            normScale b0 T, normTx b0 T, normTy b0 T) := by
  unfold normalizeGlyphPath
  rw [h]
  simp only [bbox_flipStep segs b0 h]
  simp [hw, hh]

/-- Inversion: a successful `normalize_glyph_path` run determines the
input bounding box and the returned transform parameters. -/
theorem normalizeGlyphPath_some_inv (segs : List Segment) (T : ℚ)
    (q : List Segment) (sc tx ty : ℚ)
    (h : normalizeGlyphPath segs T = some (q, sc, tx, ty)) :
    ∃ b0, getGlobalBbox segs = some b0 ∧ bboxW b0 ≠ 0 ∧ bboxH b0 ≠ 0 ∧
      q = (flipStep segs b0).map (fun s =>
            translateSeg (normTx b0 T) (normTy b0 T)
              (scaleSeg (normScale b0 T) (normScale b0 T) s)) ∧
      sc = normScale b0 T ∧ tx = normTx b0 T ∧ ty = normTy b0 T := by
  cases hb : getGlobalBbox segs with
  | none =>
    unfold normalizeGlyphPath at h
    rw [hb] at h
    simp at h
  | some b0 =>
    unfold normalizeGlyphPath at h
    rw [hb] at h
    simp only [bbox_flipStep segs b0 hb] at h
    by_cases hz : bboxW b0 = 0 ∨ bboxH b0 = 0
    · simp [hz] at h
    · push_neg at hz
      refine ⟨b0, rfl, hz.1, hz.2, ?_⟩
      simp only [hz.1, hz.2, or_self, if_false, Option.some.injEq,
        Prod.mk.injEq] at h
      exact ⟨h.1.symm, h.2.1.symm, h.2.2.1.symm, h.2.2.2.symm⟩

/-- The normalized path has bounding box
`[sc·xMin + tx, sc·xMax + tx] × [sc·yMin + ty, sc·yMax + ty]` in terms
of the original bounding box, with a strictly positive scale. -/
theorem normalize_bbox (segs q : List Segment) (T sc tx ty : ℚ) (hT : 0 < T)
    (h : normalizeGlyphPath segs T = some (q, sc, tx, ty)) :
    ∃ b0, getGlobalBbox segs = some b0 ∧ 0 < bboxW b0 ∧ 0 < bboxH b0 ∧
      sc = normScale b0 T ∧ tx = normTx b0 T ∧ ty = normTy b0 T ∧ 0 < sc ∧
      getGlobalBbox q =
        some ⟨sc * b0.xMin + tx, sc * b0.xMax + tx,
              sc * b0.yMin + ty, sc * b0.yMax + ty⟩ := by
  obtain ⟨b0, hb, hw, hh, hq, hsc, htx, hty⟩ :=
    normalizeGlyphPath_some_inv segs T q sc tx ty h
  have hord := bbox_min_le_max segs b0 hb
  have hW : 0 < bboxW b0 := lt_of_le_of_ne (by unfold bboxW; linarith [hord.1]) (Ne.symm hw)
  have hH : 0 < bboxH b0 := lt_of_le_of_ne (by unfold bboxH; linarith [hord.2]) (Ne.symm hh)
  have hscpos : 0 < normScale b0 T :=
    lt_min (div_pos hT hW) (div_pos hT hH)
  refine ⟨b0, hb, hW, hH, hsc, htx, hty, hsc ▸ hscpos, ?_⟩
  have hq2 : q = (flipStep segs b0).map
      (mapSeg (affPoint (normScale b0 T) (normScale b0 T) (normTx b0 T) (normTy b0 T))) := by
    rw [hq]
    simp only [translateSeg_scaleSeg]
  rw [hq2, getGlobalBbox_map_pos (normTx b0 T) (normTy b0 T)
        (le_of_lt hscpos) (le_of_lt hscpos) (flipStep segs b0) b0
        (bbox_flipStep segs b0 hb), hsc, htx, hty]

/-- The normalized bounding box is the centered square fit: center at
`(T/2, T/2)`, larger dimension exactly `T`, both dimensions nonnegative
and at most `T`. -/
theorem normalize_center (segs q : List Segment) (T sc tx ty : ℚ) (hT : 0 < T)
    (h : normalizeGlyphPath segs T = some (q, sc, tx, ty)) :
    ∃ bq, getGlobalBbox q = some bq ∧
      (bq.xMin + bq.xMax) / 2 = T / 2 ∧ (bq.yMin + bq.yMax) / 2 = T / 2 ∧
      max (bboxW bq) (bboxH bq) = T ∧
      0 ≤ bboxW bq ∧ bboxW bq ≤ T ∧ 0 ≤ bboxH bq ∧ bboxH bq ≤ T := by
  obtain ⟨b0, hb, hW, hH, hsc, htx, hty, hscpos, hbq⟩ :=
    normalize_bbox segs q T sc tx ty hT h
  refine ⟨_, hbq, ?_, ?_, ?_, ?_, ?_, ?_, ?_⟩
  · show (sc * b0.xMin + tx + (sc * b0.xMax + tx)) / 2 = T / 2
    rw [htx, hsc]
    unfold normTx bboxW
    ring
  · show (sc * b0.yMin + ty + (sc * b0.yMax + ty)) / 2 = T / 2
    rw [hty, hsc]
    unfold normTy bboxH
    ring
  all_goals
    have hWq : bboxW ⟨sc * b0.xMin + tx, sc * b0.xMax + tx,
        sc * b0.yMin + ty, sc * b0.yMax + ty⟩ = sc * bboxW b0 := by
      unfold bboxW; ring
    have hHq : bboxH ⟨sc * b0.xMin + tx, sc * b0.xMax + tx,
        sc * b0.yMin + ty, sc * b0.yMax + ty⟩ = sc * bboxH b0 := by
      unfold bboxH; ring
  · -- larger dimension is exactly T
    rw [hWq, hHq, hsc]
    unfold normScale
    rcases le_total (bboxW b0) (bboxH b0) with hcmp | hcmp
    · have hdiv : T / bboxH b0 ≤ T / bboxW b0 := by
        rw [div_le_div_iff₀ hH hW]
        nlinarith
      rw [min_eq_right hdiv, max_eq_right
        (mul_le_mul_of_nonneg_left hcmp (by positivity))]
      field_simp
    · have hdiv : T / bboxW b0 ≤ T / bboxH b0 := by
        rw [div_le_div_iff₀ hW hH]
        nlinarith
      rw [min_eq_left hdiv, max_eq_left
        (mul_le_mul_of_nonneg_left hcmp (by positivity))]
      field_simp
  · rw [hWq]; positivity
  · -- width at most T
    rw [hWq, hsc]
    unfold normScale
    calc min (T / bboxW b0) (T / bboxH b0) * bboxW b0
        ≤ T / bboxW b0 * bboxW b0 :=
          mul_le_mul_of_nonneg_right (min_le_left _ _) (le_of_lt hW)
      _ = T := div_mul_cancel₀ T (ne_of_gt hW)
  · rw [hHq]; positivity
  · rw [hHq, hsc]
    unfold normScale
    calc min (T / bboxW b0) (T / bboxH b0) * bboxH b0
        ≤ T / bboxH b0 * bboxH b0 :=
          mul_le_mul_of_nonneg_right (min_le_right _ _) (le_of_lt hH)
      _ = T := div_mul_cancel₀ T (ne_of_gt hH)

/-! ### Claim C1 -/

/-- C1: for every outline whose bounding box has nonzero width and height
and every positive target size, `normalize_glyph_path` succeeds and the
returned path has a bounding box whose larger dimension equals
`target_size` and whose center is `(target_size/2, target_size/2)`. -/
theorem normalize_fits_centered_square (segs : List Segment) (b0 : BBox) (T : ℚ)
    (h : getGlobalBbox segs = some b0) (hw : bboxW b0 ≠ 0) (hh : bboxH b0 ≠ 0)
    (hT : 0 < T) :
    ∃ q sc tx ty, normalizeGlyphPath segs T = some (q, sc, tx, ty) ∧
      ∃ bq, getGlobalBbox q = some bq ∧
        max (bboxW bq) (bboxH bq) = T ∧
        (bq.xMin + bq.xMax) / 2 = T / 2 ∧ (bq.yMin + bq.yMax) / 2 = T / 2 := by
  have heq := normalizeGlyphPath_eq segs b0 T h hw hh
  obtain ⟨bq, hbq, hcx, hcy, hmax, -⟩ :=
    normalize_center segs _ T _ _ _ hT heq
  exact ⟨_, _, _, _, heq, bq, hbq, hmax, hcx, hcy⟩

/-- C1 witness: the outline [line (0,0)-(2,1)] with target size 4. -/
theorem normalize_fits_centered_square_witness :
    getGlobalBbox [Segment.line (0, 0) (2, 1)] = some ⟨0, 2, 0, 1⟩ ∧
    bboxW (⟨0, 2, 0, 1⟩ : BBox) ≠ 0 ∧ bboxH (⟨0, 2, 0, 1⟩ : BBox) ≠ 0 ∧
    (0 : ℚ) < 4 ∧
    (∃ q sc tx ty, normalizeGlyphPath [Segment.line (0, 0) (2, 1)] 4 =
        some (q, sc, tx, ty) ∧
      ∃ bq, getGlobalBbox q = some bq ∧
        max (bboxW bq) (bboxH bq) = 4 ∧
        (bq.xMin + bq.xMax) / 2 = 4 / 2 ∧ (bq.yMin + bq.yMax) / 2 = 4 / 2) :=
  ⟨by norm_num [getGlobalBbox, allPoints, bpoints, bboxOfPoints, minChain,
      maxChain, min_def, max_def],
   by norm_num [bboxW], by norm_num [bboxH], by norm_num,
   normalize_fits_centered_square [Segment.line (0, 0) (2, 1)] ⟨0, 2, 0, 1⟩ 4
     (by norm_num [getGlobalBbox, allPoints, bpoints, bboxOfPoints, minChain,
        maxChain, min_def, max_def])
     (by norm_num [bboxW]) (by norm_num [bboxH]) (by norm_num)⟩

/-! ### Claim C2 -/

/-- C2: the claim states that the flip step re-bases the flipped outline
so its minimum Y is 0 (as the docstring of `normalize_glyph_path` also
asserts).  On the outline [line (0,1)-(1,2)] the flip step of the code,
`scaled(1,-1).translated(complex(0, y_min + y_max))`, produces
[line (0,2)-(1,1)], whose minimum Y is 1, the original `y_min`, not 0.
(The later centering step absorbs the difference, so the final
normalized output is unaffected.) -/
theorem flipStep_min_not_rebased :
    getGlobalBbox [Segment.line (0, 1) (1, 2)] = some ⟨0, 1, 1, 2⟩ ∧
    flipStep [Segment.line (0, 1) (1, 2)] ⟨0, 1, 1, 2⟩ =
      [Segment.line (0, 2) (1, 1)] ∧
    getGlobalBbox (flipStep [Segment.line (0, 1) (1, 2)] ⟨0, 1, 1, 2⟩) =
      some ⟨0, 1, 1, 2⟩ ∧
    BBox.yMin ⟨0, 1, 1, 2⟩ ≠ 0 := by
  refine ⟨?_, ?_, ?_, by norm_num⟩ <;>
    norm_num [getGlobalBbox, allPoints, bpoints, bboxOfPoints, minChain,
      maxChain, min_def, max_def, flipStep, translateSeg, scaleSeg, mapSeg,
      scalePoint, translatePoint]

/-! ### Claim C3 -/

/-- C3: an outline whose bounding box has zero width or zero height makes
normalization fail (the Python float division `target_size / 0.0` raises
`ZeroDivisionError` instead of producing an infinite or NaN scale,
modelled by `none`), and the bounding-box computation fails on an
outline with zero segments (`min([])` raises `ValueError`). -/
theorem degenerate_normalization_fails :
    (∀ (segs : List Segment) (T : ℚ) (b : BBox), getGlobalBbox segs = some b →
        bboxW b = 0 ∨ bboxH b = 0 → normalizeGlyphPath segs T = none) ∧
    getGlobalBbox ([] : List Segment) = none := by
  constructor
  · intro segs T b hb hz
    unfold normalizeGlyphPath
    rw [hb]
    simp only [bbox_flipStep segs b hb]
    simp [hz]
  · rfl

/-- C3 witness: a vertical segment (zero-width bounding box). -/
theorem degenerate_normalization_fails_witness :
    getGlobalBbox [Segment.line (0, 0) (0, 5)] = some ⟨0, 0, 0, 5⟩ ∧
    (bboxW (⟨0, 0, 0, 5⟩ : BBox) = 0 ∨ bboxH (⟨0, 0, 0, 5⟩ : BBox) = 0) ∧
    normalizeGlyphPath [Segment.line (0, 0) (0, 5)] 10 = none :=
  ⟨by norm_num [getGlobalBbox, allPoints, bpoints, bboxOfPoints, minChain,
      maxChain, min_def, max_def],
   by norm_num [bboxW, bboxH],
   degenerate_normalization_fails.1 [Segment.line (0, 0) (0, 5)] 10
     ⟨0, 0, 0, 5⟩
     (by norm_num [getGlobalBbox, allPoints, bpoints, bboxOfPoints, minChain,
        maxChain, min_def, max_def])
     (by norm_num [bboxW, bboxH])⟩

/-! ### Claim C4 -/

/-- C4: normalization is idempotent on the transform parameters:
re-normalizing an already normalized outline at the same positive target
size yields scale 1 and zero offsets (exactly, in rational arithmetic). -/
theorem normalize_idempotent (segs q : List Segment) (T sc tx ty : ℚ)
    (hT : 0 < T) (h : normalizeGlyphPath segs T = some (q, sc, tx, ty)) :
    ∃ q', normalizeGlyphPath q T = some (q', 1, 0, 0) := by
  obtain ⟨b0, hb, hW, hH, hsc, htx, hty, hscpos, hbq⟩ :=
    normalize_bbox segs q T sc tx ty hT h
  obtain ⟨bq', hbq', hcx, hcy, hmax, -⟩ :=
    normalize_center segs q T sc tx ty hT h
  have hbqeq : bq' = ⟨sc * b0.xMin + tx, sc * b0.xMax + tx,
      sc * b0.yMin + ty, sc * b0.yMax + ty⟩ :=
    Option.some.inj (hbq'.symm.trans hbq)
  subst hbqeq
  have hWq : bboxW (⟨sc * b0.xMin + tx, sc * b0.xMax + tx,
      sc * b0.yMin + ty, sc * b0.yMax + ty⟩ : BBox) = sc * bboxW b0 := by
    unfold bboxW; ring
  have hHq : bboxH (⟨sc * b0.xMin + tx, sc * b0.xMax + tx,
      sc * b0.yMin + ty, sc * b0.yMax + ty⟩ : BBox) = sc * bboxH b0 := by
    unfold bboxH; ring
  have hWqpos : 0 < bboxW (⟨sc * b0.xMin + tx, sc * b0.xMax + tx,
      sc * b0.yMin + ty, sc * b0.yMax + ty⟩ : BBox) := by
    rw [hWq]; exact mul_pos hscpos hW
  have hHqpos : 0 < bboxH (⟨sc * b0.xMin + tx, sc * b0.xMax + tx,
      sc * b0.yMin + ty, sc * b0.yMax + ty⟩ : BBox) := by
    rw [hHq]; exact mul_pos hscpos hH
  have heq := normalizeGlyphPath_eq q _ T hbq (ne_of_gt hWqpos) (ne_of_gt hHqpos)
  have hs1 : normScale (⟨sc * b0.xMin + tx, sc * b0.xMax + tx,
      sc * b0.yMin + ty, sc * b0.yMax + ty⟩ : BBox) T = 1 := by
    unfold normScale
    rcases le_total
        (bboxW (⟨sc * b0.xMin + tx, sc * b0.xMax + tx,
          sc * b0.yMin + ty, sc * b0.yMax + ty⟩ : BBox))
        (bboxH (⟨sc * b0.xMin + tx, sc * b0.xMax + tx,
          sc * b0.yMin + ty, sc * b0.yMax + ty⟩ : BBox)) with hc | hc
    · have hHT : bboxH (⟨sc * b0.xMin + tx, sc * b0.xMax + tx,
          sc * b0.yMin + ty, sc * b0.yMax + ty⟩ : BBox) = T := by
        rw [← hmax, max_eq_right hc]
      rw [hHT, div_self (ne_of_gt hT)]
      refine min_eq_right ((one_le_div hWqpos).mpr ?_)
      rw [← hHT]; exact hc
    · have hWT : bboxW (⟨sc * b0.xMin + tx, sc * b0.xMax + tx,
          sc * b0.yMin + ty, sc * b0.yMax + ty⟩ : BBox) = T := by
        rw [← hmax, max_eq_left hc]
      rw [hWT, div_self (ne_of_gt hT)]
      refine min_eq_left ((one_le_div hHqpos).mpr ?_)
      rw [← hWT]; exact hc
  have htx0 : normTx (⟨sc * b0.xMin + tx, sc * b0.xMax + tx,
      sc * b0.yMin + ty, sc * b0.yMax + ty⟩ : BBox) T = 0 := by
    unfold normTx bboxW
    rw [hs1]
    simp only [BBox.xMin, BBox.xMax] at hcx ⊢
    linarith
  have hty0 : normTy (⟨sc * b0.xMin + tx, sc * b0.xMax + tx,
      sc * b0.yMin + ty, sc * b0.yMax + ty⟩ : BBox) T = 0 := by
    unfold normTy bboxH
    rw [hs1]
    simp only [BBox.yMin, BBox.yMax] at hcy ⊢
    linarith
  rw [hs1, htx0, hty0] at heq
  exact ⟨_, heq⟩

/-- C4 witness: normalizing [line (0,0)-(2,1)] at target size 4 yields
the path [line (0,3)-(4,1)] with scale 2, and re-normalizing that path
at target size 4 yields scale 1 and zero offsets. -/
theorem normalize_idempotent_witness :
    (0 : ℚ) < 4 ∧
    ∃ q', normalizeGlyphPath [Segment.line (0, 3) (4, 1)] 4 =
      some (q', 1, 0, 0) :=
  ⟨by norm_num,
   normalize_idempotent [Segment.line (0, 0) (2, 1)]
     [Segment.line (0, 3) (4, 1)] 4 2 0 1 (by norm_num)
     (by norm_num [normalizeGlyphPath, getGlobalBbox, allPoints, bpoints,
        bboxOfPoints, minChain, maxChain, min_def, max_def, flipStep,
        normScale, normTx, normTy, bboxW, bboxH, translateSeg, scaleSeg,
        mapSeg, scalePoint, translatePoint])⟩

/-! ### Claim C6: digit placement inside markers (index.py lines 74-93) -/

/-- `target_size = 2 * r_font * DIGIT_INSIDE_SCALE` (index.py line 81,
with `DIGIT_INSIDE_SCALE = 0.6`). -/
def digitTargetSize (rFont : ℚ) : ℚ := 2 * rFont * (3 / 5)

/-- Digit placement (index.py lines 82-89): normalize the child outline
to `target_size`, then translate every segment by
`(x0 - target_size/2, y0 - target_size/2)`. -/
def placeDigit (digitSegs : List Segment) (targetSize x0 y0 : ℚ) :
    Option (List Segment) :=
  match normalizeGlyphPath digitSegs targetSize with
  | none => none
  | some (dpath, _sc, _tx, _ty) =>
    some (dpath.map (translateSeg (x0 - targetSize / 2) (y0 - targetSize / 2)))

theorem translateSeg_eq_affine (dx dy : ℚ) :
    translateSeg dx dy = mapSeg (affPoint 1 1 dx dy) := by
  funext s
  cases s <;> simp [translateSeg, mapSeg, translatePoint, affPoint, Point,
    scalePoint, one_mul, Prod.ext_iff]

/-- C6: placing a child outline with nondegenerate bounding box at a
positive child target size puts the center of its normalized square at
`(x0, y0)`: the placed bounding box is centered there on both axes, and
its larger dimension is the child target size. -/
theorem place_digit_centered (digitSegs : List Segment) (T x0 y0 : ℚ)
    (hT : 0 < T) (placed : List Segment)
    (h : placeDigit digitSegs T x0 y0 = some placed) :
    ∃ bp, getGlobalBbox placed = some bp ∧
      (bp.xMin + bp.xMax) / 2 = x0 ∧ (bp.yMin + bp.yMax) / 2 = y0 ∧
      max (bboxW bp) (bboxH bp) = T := by
  cases hn : normalizeGlyphPath digitSegs T with
  | none =>
    unfold placeDigit at h
    rw [hn] at h
    simp at h
  | some res =>
    obtain ⟨dpath, sc, tx, ty⟩ := res
    unfold placeDigit at h
    rw [hn] at h
    simp only [Option.some.injEq] at h
    obtain ⟨bq, hbq, hcx, hcy, hmax, -⟩ :=
      normalize_center digitSegs dpath T sc tx ty hT hn
    have hplaced : placed =
        dpath.map (mapSeg (affPoint 1 1 (x0 - T / 2) (y0 - T / 2))) := by
      rw [← h, translateSeg_eq_affine]
    have hbp := @getGlobalBbox_map_pos 1 1 (x0 - T / 2) (y0 - T / 2)
      (by norm_num) (by norm_num) dpath bq hbq
    rw [← hplaced] at hbp
    refine ⟨_, hbp, ?_, ?_, ?_⟩
    · show (1 * bq.xMin + (x0 - T / 2) + (1 * bq.xMax + (x0 - T / 2))) / 2 = x0
      linarith
    · show (1 * bq.yMin + (y0 - T / 2) + (1 * bq.yMax + (y0 - T / 2))) / 2 = y0
      linarith
    · have hW : bboxW ⟨1 * bq.xMin + (x0 - T / 2), 1 * bq.xMax + (x0 - T / 2),
          1 * bq.yMin + (y0 - T / 2), 1 * bq.yMax + (y0 - T / 2)⟩ = bboxW bq := by
        unfold bboxW; ring
      have hH : bboxH ⟨1 * bq.xMin + (x0 - T / 2), 1 * bq.xMax + (x0 - T / 2),
          1 * bq.yMin + (y0 - T / 2), 1 * bq.yMax + (y0 - T / 2)⟩ = bboxH bq := by
        unfold bboxH; ring
      rw [hW, hH, hmax]

/-- C6 witness: the child [line (0,0)-(2,1)] at child target size 4,
placed at the parent-space point (10, 20). -/
theorem place_digit_centered_witness :
    (0 : ℚ) < 4 ∧
    placeDigit [Segment.line (0, 0) (2, 1)] 4 10 20 =
      some [Segment.line (8, 21) (12, 19)] ∧
    (∃ bp, getGlobalBbox [Segment.line (8, 21) (12, 19)] = some bp ∧
      (bp.xMin + bp.xMax) / 2 = 10 ∧ (bp.yMin + bp.yMax) / 2 = 20 ∧
      max (bboxW bp) (bboxH bp) = 4) :=
  ⟨by norm_num,
   by norm_num [placeDigit, normalizeGlyphPath, getGlobalBbox, allPoints,
      bpoints, bboxOfPoints, minChain, maxChain, min_def, max_def, flipStep,
      normScale, normTx, normTy, bboxW, bboxH, translateSeg, scaleSeg,
      mapSeg, scalePoint, translatePoint],
   place_digit_centered [Segment.line (0, 0) (2, 1)] 4 10 20 (by norm_num)
     [Segment.line (8, 21) (12, 19)]
     (by norm_num [placeDigit, normalizeGlyphPath, getGlobalBbox, allPoints,
        bpoints, bboxOfPoints, minChain, maxChain, min_def, max_def, flipStep,
        normScale, normTx, normTy, bboxW, bboxH, translateSeg, scaleSeg,
        mapSeg, scalePoint, translatePoint])⟩

/-! ### Claim C9: the shape.py normalization variant (shape.py lines 72-96) -/

/-- The shape.py transform: compute the bounding box, scale uniformly by
`min(SCALE/width, SCALE/height)`, translate by
`(-min_x*sf + tx, -min_y*sf + ty)` where `tx`, `ty` (lines 82-83)
already contain a `-min*sf` term, then flip with `scaled(1,-1)` and
`translated(complex(0, SCALE))` (lines 95-96).  Division by a zero
extent raises in Python, modelled by `none`. -/
def shapeTransform (segs : List Segment) (S : ℚ) : Option (List Segment) :=
  match getGlobalBbox segs with
  | none => none
  | some b =>
    if bboxW b = 0 ∨ bboxH b = 0 then none
    else
      let sf := min (S / bboxW b) (S / bboxH b)
      let tx := (S - bboxW b * sf) / 2 - b.xMin * sf
      let ty := (S - bboxH b * sf) / 2 - b.yMin * sf
      let transformed := segs.map (fun s =>
        translateSeg (-b.xMin * sf + tx) (-b.yMin * sf + ty) (scaleSeg sf sf s))
      some (transformed.map (fun s => translateSeg 0 S (scaleSeg 1 (-1) s)))

/-- C9: the claim says the shape.py order (scale and center, then flip
about y = SCALE/2) agrees with the svg_utils.py order (flip about the
bounding-box midline, then scale and center).  On the outline
[line (1,1)-(2,3)] at size 600 they disagree: shape.py translates by
`-min*sf + tx` where `tx` already contains `-min*sf` (lines 82-89), so
the `-min*sf` shift is applied twice and the result is offset by
`(-min_x*sf, +min_y*sf)` = (-300, 300) from the svg_utils.py output,
and is not centered in the square, contrary to the comments of shape.py
(steps 3.4 and 3.6).  With the shift applied once, the two orders
coincide. -/
theorem shape_vs_svgutils_diverge :
    shapeTransform [Segment.line (1, 1) (2, 3)] 600 =
      some [Segment.line (-150, 900) (150, 300)] ∧
    normalizeGlyphPath [Segment.line (1, 1) (2, 3)] 600 =
      some ([Segment.line (150, 600) (450, 0)], 300, -150, -300) ∧
    ([Segment.line (-150, 900) (150, 300)] : List Segment) ≠
      [Segment.line (150, 600) (450, 0)] := by
  refine ⟨?_, ?_, ?_⟩ <;>
    norm_num [shapeTransform, normalizeGlyphPath, getGlobalBbox, allPoints,
      bpoints, bboxOfPoints, minChain, maxChain, min_def, max_def, flipStep,
      normScale, normTx, normTy, bboxW, bboxH, translateSeg, scaleSeg,
      mapSeg, scalePoint, translatePoint, Prod.ext_iff]

/-! ### Sampling (json_generator.py lines 59-71, svgpathtools Path.point)

`svgpathtools.Path.point(pos)` returns `self._segments[0].point(pos)`
when `pos == 0.0` and `self._segments[-1].point(pos)` when `pos == 1.0`;
otherwise it walks the segments accumulating the length fractions
`self._fractions[index]` until `segment_end >= pos`, then evaluates that
segment at `(pos - segment_start) / (segment_end - segment_start)`, and
raises if the loop exhausts the segments.  The fractions are computed by
numerical arc-length integration in the library; the embedding takes
them as a parameter `fracs`. -/

/-- `seg.point(t)`: line interpolation or the Bernstein form of the
quadratic / cubic Bezier polynomial (svgpathtools evaluates the same
polynomial in expanded form). -/
def segPoint : Segment → ℚ → Point
  | .line a b, t =>
      (a.1 + t * (b.1 - a.1), a.2 + t * (b.2 - a.2))
  | .quad a b c, t =>
      ((1 - t) ^ 2 * a.1 + 2 * (1 - t) * t * b.1 + t ^ 2 * c.1,
       (1 - t) ^ 2 * a.2 + 2 * (1 - t) * t * b.2 + t ^ 2 * c.2)
  | .cubic a b c d, t =>
      ((1 - t) ^ 3 * a.1 + 3 * (1 - t) ^ 2 * t * b.1
        + 3 * (1 - t) * t ^ 2 * c.1 + t ^ 3 * d.1,
       (1 - t) ^ 3 * a.2 + 3 * (1 - t) ^ 2 * t * b.2
        + 3 * (1 - t) * t ^ 2 * c.2 + t ^ 3 * d.2)

/-- The segment-search loop of `Path.point` for `0 < pos < 1`:
`acc` is `segment_start`; `none` models the `raise` after loop
exhaustion (and an out-of-sync fractions list). -/
def walkSegs : List Segment → List ℚ → ℚ → ℚ → Option Point
  | [], _, _, _ => none
  | _ :: _, [], _, _ => none
  | seg :: rest, f :: fs, acc, t =>
    if t ≤ acc + f then some (segPoint seg ((t - acc) / (acc + f - acc)))
    else walkSegs rest fs (acc + f) t

/-- `subpath.point(t)` with length fractions `fracs`. -/
def pathPoint (fracs : List ℚ) : List Segment → ℚ → Option Point
  | [], _ => none
  | s0 :: rest, t =>
    if t = 0 then some (segPoint s0 0)
    else if t = 1 then some (segPoint (rest.getLastD s0) 1)
    else walkSegs (s0 :: rest) fracs 0 t

/-- Start point of a subpath: the start of its first segment. -/
def subStart (sub : List Segment) : Point :=
  segStart (sub.headD (.line (0, 0) (0, 0)))

/-- End point of a subpath: the end of its last segment. -/
def subEnd (sub : List Segment) : Point :=
  segEnd (sub.getLastD (.line (0, 0) (0, 0)))

/-- The sampling loop of json_generator.py lines 62-65: `n` points at
parameter values `t = k / (n - 1)`, `k = 0 .. n-1`. -/
def sampleSub (fracs : List Segment → List ℚ) (sub : List Segment) (n : ℕ) :
    List (Option Point) :=
  (List.range n).map fun (k : ℕ) =>
    pathPoint (fracs sub) sub ((k : ℚ) / ((n : ℚ) - 1))

/-- The strokes loop of json_generator.py lines 60-71: one sampled point
list per continuous subpath, in subpath order. -/
def sampleStrokes (fracs : List Segment → List ℚ) (subs : List (List Segment))
    (n : ℕ) : List (List (Option Point)) :=
  subs.map fun sub => sampleSub fracs sub n

theorem segPoint_zero (s : Segment) : segPoint s 0 = segStart s := by
  cases s <;> simp [segPoint, segStart, Prod.ext_iff]

theorem segPoint_one (s : Segment) : segPoint s 1 = segEnd s := by
  cases s <;> simp [segPoint, segEnd, Prod.ext_iff]

theorem getLastD_mem {α : Type} (l : List α) (d : α) :
    l.getLastD d ∈ d :: l := by
  induction l generalizing d with
  | nil => simp [List.getLastD]
  | cons a l ih =>
    rw [List.getLastD_cons]
    exact List.mem_cons_of_mem d (ih a)

/-! ### Claim C5 -/

/-- C5: for every nonempty subpath and every sample count `n ≥ 2`, the
sampler emits exactly `n` points, the k-th being the subpath evaluated
at `t = k/(n-1)`; sample 0 is the literal start point of the subpath
and sample `n-1` its literal end point; and the strokes list has one
entry per subpath, in the original subpath order. -/
theorem sampling_endpoints_exact (fracs : List Segment → List ℚ)
    (sub : List Segment) (hne : sub ≠ []) (n : ℕ) (hn : 2 ≤ n) :
    (sampleSub fracs sub n).length = n ∧
    (∀ k, k < n → (sampleSub fracs sub n).getD k none =
        pathPoint (fracs sub) sub ((k : ℚ) / ((n : ℚ) - 1))) ∧
    (sampleSub fracs sub n).getD 0 none = some (subStart sub) ∧
    (sampleSub fracs sub n).getD (n - 1) none = some (subEnd sub) ∧
    (∀ (subs : List (List Segment)) (i : ℕ), i < subs.length →
      (sampleStrokes fracs subs n).getD i [] =
        sampleSub fracs (subs.getD i []) n) := by
  obtain ⟨s0, rest, rfl⟩ := List.exists_cons_of_ne_nil hne
  have hlen : (sampleSub fracs (s0 :: rest) n).length = n := by
    unfold sampleSub
    rw [List.length_map, List.length_range]
  have hget : ∀ k, k < n → (sampleSub fracs (s0 :: rest) n).getD k none =
      pathPoint (fracs (s0 :: rest)) (s0 :: rest) ((k : ℚ) / ((n : ℚ) - 1)) := by
    intro k hk
    unfold sampleSub
    rw [List.getD_eq_getElem?_getD, List.getElem?_map,
      List.getElem?_range hk]
    rfl
  refine ⟨hlen, hget, ?_, ?_, ?_⟩
  · rw [hget 0 (by omega)]
    unfold pathPoint
    norm_num [segPoint_zero, subStart]
  · rw [hget (n - 1) (by omega)]
    have hcast : ((n - 1 : ℕ) : ℚ) = (n : ℚ) - 1 := by
      have : (1 : ℕ) ≤ n := by omega
      push_cast [this]
      ring
    have hne1 : ((n : ℚ) - 1) ≠ 0 := by
      have : (2 : ℚ) ≤ (n : ℚ) := by exact_mod_cast hn
      linarith
    have ht1 : ((n - 1 : ℕ) : ℚ) / ((n : ℚ) - 1) = 1 := by
      rw [hcast, div_self hne1]
    rw [ht1]
    show (if (1 : ℚ) = 0 then some (segPoint s0 0)
      else if (1 : ℚ) = 1 then some (segPoint (rest.getLastD s0) 1)
      else walkSegs (s0 :: rest) (fracs (s0 :: rest)) 0 1) =
        some (subEnd (s0 :: rest))
    rw [if_neg (one_ne_zero), if_pos rfl, segPoint_one,
      show subEnd (s0 :: rest) = segEnd (rest.getLastD s0) from by
        unfold subEnd; rw [List.getLastD_cons]]
  · intro subs i hi
    unfold sampleStrokes
    rw [List.getD_eq_getElem?_getD, List.getElem?_map,
      List.getElem?_eq_getElem hi]
    rw [List.getD_eq_getElem?_getD, List.getElem?_eq_getElem hi]
    rfl

/-- C5 witness: one line segment, 2 samples. -/
theorem sampling_endpoints_exact_witness :
    ([Segment.line (0, 0) (3, 4)] : List Segment) ≠ [] ∧ 2 ≤ 2 ∧
    (sampleSub (fun _ => [1]) [Segment.line (0, 0) (3, 4)] 2).getD 0 none =
      some (subStart [Segment.line (0, 0) (3, 4)]) ∧
    (sampleSub (fun _ => [1]) [Segment.line (0, 0) (3, 4)] 2).getD (2 - 1) none =
      some (subEnd [Segment.line (0, 0) (3, 4)]) :=
  ⟨by simp, by omega,
   (sampling_endpoints_exact (fun _ => [1]) [Segment.line (0, 0) (3, 4)]
      (by simp) 2 (by omega)).2.2.1,
   (sampling_endpoints_exact (fun _ => [1]) [Segment.line (0, 0) (3, 4)]
      (by simp) 2 (by omega)).2.2.2.1⟩

/-! ### Curve points stay inside the control-point bounding box -/

theorem convex_combo_bounds (w0 w1 w2 w3 x0 x1 x2 x3 lo hi : ℚ)
    (h0 : 0 ≤ w0) (h1 : 0 ≤ w1) (h2 : 0 ≤ w2) (h3 : 0 ≤ w3)
    (hsum : w0 + w1 + w2 + w3 = 1)
    (hb0 : lo ≤ x0 ∧ x0 ≤ hi) (hb1 : lo ≤ x1 ∧ x1 ≤ hi)
    (hb2 : lo ≤ x2 ∧ x2 ≤ hi) (hb3 : lo ≤ x3 ∧ x3 ≤ hi) :
    lo ≤ w0 * x0 + w1 * x1 + w2 * x2 + w3 * x3 ∧
      w0 * x0 + w1 * x1 + w2 * x2 + w3 * x3 ≤ hi := by
  have elo : w0 * lo + w1 * lo + w2 * lo + w3 * lo = lo := by
    rw [← add_mul, ← add_mul, ← add_mul, hsum, one_mul]
  have ehi : w0 * hi + w1 * hi + w2 * hi + w3 * hi = hi := by
    rw [← add_mul, ← add_mul, ← add_mul, hsum, one_mul]
  constructor
  · have a0 := mul_le_mul_of_nonneg_left hb0.1 h0
    have a1 := mul_le_mul_of_nonneg_left hb1.1 h1
    have a2 := mul_le_mul_of_nonneg_left hb2.1 h2
    have a3 := mul_le_mul_of_nonneg_left hb3.1 h3
    linarith
  · have a0 := mul_le_mul_of_nonneg_left hb0.2 h0
    have a1 := mul_le_mul_of_nonneg_left hb1.2 h1
    have a2 := mul_le_mul_of_nonneg_left hb2.2 h2
    have a3 := mul_le_mul_of_nonneg_left hb3.2 h3
    linarith

/-- A Bezier / line point at parameter `u ∈ [0,1]` stays within any box
containing all control points (the Bernstein weights form a convex
combination). -/
theorem segPoint_mem_bounds (s : Segment) (u : ℚ) (hu0 : 0 ≤ u) (hu1 : u ≤ 1)
    (lo1 hi1 lo2 hi2 : ℚ)
    (hcp : ∀ p ∈ bpoints s, lo1 ≤ p.1 ∧ p.1 ≤ hi1 ∧ lo2 ≤ p.2 ∧ p.2 ≤ hi2) :
    lo1 ≤ (segPoint s u).1 ∧ (segPoint s u).1 ≤ hi1 ∧
      lo2 ≤ (segPoint s u).2 ∧ (segPoint s u).2 ≤ hi2 := by
  cases s with
  | line a b =>
    have ha := hcp a (by simp [bpoints])
    have hb := hcp b (by simp [bpoints])
    have hx := convex_combo_bounds (1 - u) u 0 0 a.1 b.1 a.1 a.1 lo1 hi1
      (by linarith) hu0 le_rfl le_rfl (by ring)
      ⟨ha.1, ha.2.1⟩ ⟨hb.1, hb.2.1⟩ ⟨ha.1, ha.2.1⟩ ⟨ha.1, ha.2.1⟩
    have hy := convex_combo_bounds (1 - u) u 0 0 a.2 b.2 a.2 a.2 lo2 hi2
      (by linarith) hu0 le_rfl le_rfl (by ring)
      ⟨ha.2.2.1, ha.2.2.2⟩ ⟨hb.2.2.1, hb.2.2.2⟩
      ⟨ha.2.2.1, ha.2.2.2⟩ ⟨ha.2.2.1, ha.2.2.2⟩
    have ex : (1 - u) * a.1 + u * b.1 + 0 * a.1 + 0 * a.1 =
        (segPoint (.line a b) u).1 := by dsimp only [segPoint]; ring
    have ey : (1 - u) * a.2 + u * b.2 + 0 * a.2 + 0 * a.2 =
        (segPoint (.line a b) u).2 := by dsimp only [segPoint]; ring
    rw [ex] at hx
    rw [ey] at hy
    exact ⟨hx.1, hx.2, hy.1, hy.2⟩
  | quad a b c =>
    have ha := hcp a (by simp [bpoints])
    have hb := hcp b (by simp [bpoints])
    have hc := hcp c (by simp [bpoints])
    have w1n : (0 : ℚ) ≤ 2 * (1 - u) * u :=
      mul_nonneg (mul_nonneg (by norm_num) (by linarith)) hu0
    have hx := convex_combo_bounds ((1 - u) ^ 2) (2 * (1 - u) * u) (u ^ 2) 0
      a.1 b.1 c.1 a.1 lo1 hi1 (by positivity) w1n (by positivity) le_rfl
      (by ring) ⟨ha.1, ha.2.1⟩ ⟨hb.1, hb.2.1⟩ ⟨hc.1, hc.2.1⟩ ⟨ha.1, ha.2.1⟩
    have hy := convex_combo_bounds ((1 - u) ^ 2) (2 * (1 - u) * u) (u ^ 2) 0
      a.2 b.2 c.2 a.2 lo2 hi2 (by positivity) w1n (by positivity) le_rfl
      (by ring) ⟨ha.2.2.1, ha.2.2.2⟩ ⟨hb.2.2.1, hb.2.2.2⟩
      ⟨hc.2.2.1, hc.2.2.2⟩ ⟨ha.2.2.1, ha.2.2.2⟩
    have ex : (1 - u) ^ 2 * a.1 + 2 * (1 - u) * u * b.1 + u ^ 2 * c.1 + 0 * a.1 =
        (segPoint (.quad a b c) u).1 := by dsimp only [segPoint]; ring
    have ey : (1 - u) ^ 2 * a.2 + 2 * (1 - u) * u * b.2 + u ^ 2 * c.2 + 0 * a.2 =
        (segPoint (.quad a b c) u).2 := by dsimp only [segPoint]; ring
    rw [ex] at hx
    rw [ey] at hy
    exact ⟨hx.1, hx.2, hy.1, hy.2⟩
  | cubic a b c d =>
    have ha := hcp a (by simp [bpoints])
    have hb := hcp b (by simp [bpoints])
    have hc := hcp c (by simp [bpoints])
    have hd := hcp d (by simp [bpoints])
    have w0n : (0 : ℚ) ≤ (1 - u) ^ 3 := pow_nonneg (by linarith) 3
    have w1n : (0 : ℚ) ≤ 3 * (1 - u) ^ 2 * u :=
      mul_nonneg (by positivity) hu0
    have w2n : (0 : ℚ) ≤ 3 * (1 - u) * u ^ 2 :=
      mul_nonneg (mul_nonneg (by norm_num) (by linarith)) (by positivity)
    have hx := convex_combo_bounds ((1 - u) ^ 3) (3 * (1 - u) ^ 2 * u)
      (3 * (1 - u) * u ^ 2) (u ^ 3) a.1 b.1 c.1 d.1 lo1 hi1
      w0n w1n w2n (by positivity) (by ring)
      ⟨ha.1, ha.2.1⟩ ⟨hb.1, hb.2.1⟩ ⟨hc.1, hc.2.1⟩ ⟨hd.1, hd.2.1⟩
    have hy := convex_combo_bounds ((1 - u) ^ 3) (3 * (1 - u) ^ 2 * u)
      (3 * (1 - u) * u ^ 2) (u ^ 3) a.2 b.2 c.2 d.2 lo2 hi2
      w0n w1n w2n (by positivity) (by ring)
      ⟨ha.2.2.1, ha.2.2.2⟩ ⟨hb.2.2.1, hb.2.2.2⟩
      ⟨hc.2.2.1, hc.2.2.2⟩ ⟨hd.2.2.1, hd.2.2.2⟩
    have ex : (1 - u) ^ 3 * a.1 + 3 * (1 - u) ^ 2 * u * b.1
        + 3 * (1 - u) * u ^ 2 * c.1 + u ^ 3 * d.1 =
        (segPoint (.cubic a b c d) u).1 := rfl
    have ey : (1 - u) ^ 3 * a.2 + 3 * (1 - u) ^ 2 * u * b.2
        + 3 * (1 - u) * u ^ 2 * c.2 + u ^ 3 * d.2 =
        (segPoint (.cubic a b c d) u).2 := rfl
    rw [ex] at hx
    rw [ey] at hy
    exact ⟨hx.1, hx.2, hy.1, hy.2⟩

/-- Any point the segment-search loop returns is some segment of the
list evaluated at a parameter in `[0,1]`. -/
theorem walkSegs_some (t : ℚ) (p : Point) :
    ∀ (l : List Segment) (fs : List ℚ) (acc : ℚ), acc < t →
      walkSegs l fs acc t = some p →
      ∃ s ∈ l, ∃ u : ℚ, 0 ≤ u ∧ u ≤ 1 ∧ p = segPoint s u := by
  intro l
  induction l with
  | nil =>
    intro fs acc _ h
    simp [walkSegs] at h
  | cons seg rest ih =>
    intro fs acc hacc h
    cases fs with
    | nil => simp [walkSegs] at h
    | cons f fs2 =>
      unfold walkSegs at h
      by_cases hle : t ≤ acc + f
      · rw [if_pos hle] at h
        have hden : 0 < acc + f - acc := by linarith
        refine ⟨seg, by simp, (t - acc) / (acc + f - acc), ?_, ?_,
          (Option.some.inj h).symm⟩
        · exact div_nonneg (by linarith) (le_of_lt hden)
        · exact (div_le_one hden).mpr (by linarith)
      · rw [if_neg hle] at h
        push_neg at hle
        obtain ⟨s, hs, u, h0, h1, hp⟩ := ih fs2 (acc + f) hle h
        exact ⟨s, List.mem_cons_of_mem _ hs, u, h0, h1, hp⟩

/-- Any point `pathPoint` returns at `t ∈ [0,1]` is some segment of the
subpath evaluated at a parameter in `[0,1]`. -/
theorem pathPoint_some_mem (fracs : List ℚ) (sub : List Segment) (t : ℚ)
    (p : Point) (h0 : 0 ≤ t) (h1 : t ≤ 1)
    (h : pathPoint fracs sub t = some p) :
    ∃ s ∈ sub, ∃ u : ℚ, 0 ≤ u ∧ u ≤ 1 ∧ p = segPoint s u := by
  cases sub with
  | nil => simp [pathPoint] at h
  | cons s0 rest =>
    simp only [pathPoint] at h
    by_cases ht0 : t = 0
    · rw [if_pos ht0] at h
      exact ⟨s0, by simp, 0, le_rfl, by norm_num, (Option.some.inj h).symm⟩
    · rw [if_neg ht0] at h
      by_cases ht1 : t = 1
      · rw [if_pos ht1] at h
        exact ⟨rest.getLastD s0, getLastD_mem rest s0, 1, by norm_num, le_rfl,
          (Option.some.inj h).symm⟩
      · rw [if_neg ht1] at h
        exact walkSegs_some t p (s0 :: rest) fracs 0
          (lt_of_le_of_ne h0 (Ne.symm ht0)) h

/-! ### Continuous subpaths (svgpathtools `Path.continuous_subpaths`) -/

/-- Split a nonempty segment list into its maximal continuous runs:
returns the first run and the remaining runs, breaking between segments
`s` and `t` exactly when `s.end != t.start` (the loop of
`continuous_subpaths`). -/
def splitRunsCore : Segment → List Segment → List Segment × List (List Segment)
  | s, [] => ([s], [])
  | s, t :: rest =>
    if segEnd s = segStart t
    then (s :: (splitRunsCore t rest).1, (splitRunsCore t rest).2)
    else ([s], (splitRunsCore t rest).1 :: (splitRunsCore t rest).2)

/-- All continuous runs of `s :: rest`, in original order. -/
def splitRuns (s : Segment) (l : List Segment) : List (List Segment) :=
  (splitRunsCore s l).1 :: (splitRunsCore s l).2

/-- `path.continuous_subpaths()`: the list of continuous runs, in
original order. -/
def continuousSubpaths : List Segment → List (List Segment)
  | [] => []
  | s :: rest => splitRuns s rest

theorem splitRunsCore_mem (l : List Segment) :
    ∀ (s : Segment) (sub : List Segment),
      (sub = (splitRunsCore s l).1 ∨ sub ∈ (splitRunsCore s l).2) →
      ∀ x ∈ sub, x ∈ s :: l := by
  induction l with
  | nil =>
    intro s sub hsub x hx
    rcases hsub with rfl | hmem
    · simpa [splitRunsCore] using hx
    · simp [splitRunsCore] at hmem
  | cons t rest ih =>
    intro s sub hsub x hx
    unfold splitRunsCore at hsub
    by_cases hc : segEnd s = segStart t
    · rw [if_pos hc] at hsub
      rcases hsub with rfl | hmem
      · rcases List.mem_cons.mp hx with rfl | hx2
        · exact List.mem_cons_self x (t :: rest)
        · exact List.mem_cons_of_mem s
            (ih t (splitRunsCore t rest).1 (Or.inl rfl) x hx2)
      · exact List.mem_cons_of_mem s (ih t sub (Or.inr hmem) x hx)
    · rw [if_neg hc] at hsub
      rcases hsub with rfl | hmem
      · simp only [List.mem_singleton] at hx
        subst hx
        exact List.mem_cons_self x (t :: rest)
      · rcases List.mem_cons.mp hmem with rfl | hmem2
        · exact List.mem_cons_of_mem s (ih t _ (Or.inl rfl) x hx)
        · exact List.mem_cons_of_mem s (ih t sub (Or.inr hmem2) x hx)

theorem continuousSubpaths_mem (segs : List Segment) :
    ∀ sub ∈ continuousSubpaths segs, ∀ x ∈ sub, x ∈ segs := by
  cases segs with
  | nil =>
    intro sub hsub
    simp [continuousSubpaths] at hsub
  | cons s rest =>
    intro sub hsub
    exact splitRunsCore_mem rest s sub (List.mem_cons.mp hsub)

theorem mem_allPoints (segs : List Segment) (s : Segment) (hs : s ∈ segs)
    (p : Point) (hp : p ∈ bpoints s) : p ∈ allPoints segs := by
  induction segs with
  | nil => cases hs
  | cons a rest ih =>
    rcases List.mem_cons.mp hs with rfl | hs2
    · exact List.mem_append.mpr (Or.inl hp)
    · exact List.mem_append.mpr (Or.inr (ih hs2))

/-! ### Claim C10 -/

/-- C10: every exported JSON coordinate lies in the unit square.  For an
outline normalized at a positive `SCALE`, every sampled point `p` of
every continuous subpath (at parameter `t = k/(n-1)`, `k < n`, `n ≥ 2`,
any length fractions) satisfies `0 ≤ p.x/SCALE ≤ 1` and
`0 ≤ 1 - p.y/SCALE ≤ 1` — the emitted `(x_norm, y_norm)` of
json_generator.py lines 68-69. -/
theorem json_samples_in_unit_square
    (segs q : List Segment) (S sc tx ty : ℚ) (hS : 0 < S)
    (h : normalizeGlyphPath segs S = some (q, sc, tx, ty))
    (sub : List Segment) (hsub : sub ∈ continuousSubpaths q)
    (fracs : List ℚ) (n k : ℕ) (hn : 2 ≤ n) (hk : k < n)
    (p : Point) (hp : pathPoint fracs sub ((k : ℚ) / ((n : ℚ) - 1)) = some p) :
    0 ≤ p.1 / S ∧ p.1 / S ≤ 1 ∧ 0 ≤ 1 - p.2 / S ∧ 1 - p.2 / S ≤ 1 := by
  obtain ⟨bq, hbq, hcx, hcy, hmax, hW0, hWT, hH0, hHT⟩ :=
    normalize_center segs q S sc tx ty hS h
  have hx0 : 0 ≤ bq.xMin := by unfold bboxW at hWT; linarith
  have hx1 : bq.xMax ≤ S := by unfold bboxW at hWT; linarith
  have hy0 : 0 ≤ bq.yMin := by unfold bboxH at hHT; linarith
  have hy1 : bq.yMax ≤ S := by unfold bboxH at hHT; linarith
  have hn1 : (0 : ℚ) < (n : ℚ) - 1 := by
    have : (2 : ℚ) ≤ (n : ℚ) := by exact_mod_cast hn
    linarith
  have htlo : (0 : ℚ) ≤ (k : ℚ) / ((n : ℚ) - 1) :=
    div_nonneg (by positivity) (le_of_lt hn1)
  have hthi : (k : ℚ) / ((n : ℚ) - 1) ≤ 1 := by
    rw [div_le_one hn1]
    have : (k : ℚ) + 1 ≤ (n : ℚ) := by exact_mod_cast hk
    linarith
  obtain ⟨s, hsmem, u, hu0, hu1, rfl⟩ :=
    pathPoint_some_mem fracs sub _ p htlo hthi hp
  have hbnd : ∀ cp ∈ bpoints s, 0 ≤ cp.1 ∧ cp.1 ≤ S ∧ 0 ≤ cp.2 ∧ cp.2 ≤ S := by
    intro cp hcp
    have hsq : s ∈ q := continuousSubpaths_mem q sub hsub s hsmem
    have hb := mem_bbox q bq hbq cp (mem_allPoints q s hsq cp hcp)
    exact ⟨le_trans hx0 hb.1, le_trans hb.2.1 hx1,
           le_trans hy0 hb.2.2.1, le_trans hb.2.2.2 hy1⟩
  have hbounds := segPoint_mem_bounds s u hu0 hu1 0 S 0 S hbnd
  have hys : (segPoint s u).2 / S ≤ 1 := (div_le_one hS).mpr hbounds.2.2.2
  have hys0 : 0 ≤ (segPoint s u).2 / S := div_nonneg hbounds.2.2.1 (le_of_lt hS)
  refine ⟨div_nonneg hbounds.1 (le_of_lt hS),
    (div_le_one hS).mpr hbounds.2.1, by linarith, by linarith⟩

/-- C10 witness: the normalization of [line (0,0)-(2,1)] at scale 4 is
[line (0,3)-(4,1)]; its single continuous subpath sampled at k = 1 of
n = 2 gives the point (4,1), whose exported coordinates (1, 3/4) lie in
the unit square. -/
theorem json_samples_in_unit_square_witness :
    (0 : ℚ) < 4 ∧
    normalizeGlyphPath [Segment.line (0, 0) (2, 1)] 4 =
      some ([Segment.line (0, 3) (4, 1)], 2, 0, 1) ∧
    [Segment.line (0, 3) (4, 1)] ∈
      continuousSubpaths [Segment.line (0, 3) (4, 1)] ∧
    pathPoint [1] [Segment.line (0, 3) (4, 1)]
      ((1 : ℕ) / (((2 : ℕ) : ℚ) - 1)) = some ((4 : ℚ), (1 : ℚ)) ∧
    (0 ≤ ((4 : ℚ), (1 : ℚ)).1 / 4 ∧ ((4 : ℚ), (1 : ℚ)).1 / 4 ≤ 1 ∧
      0 ≤ 1 - ((4 : ℚ), (1 : ℚ)).2 / 4 ∧ 1 - ((4 : ℚ), (1 : ℚ)).2 / 4 ≤ 1) :=
  ⟨by norm_num,
   by norm_num [normalizeGlyphPath, getGlobalBbox, allPoints, bpoints,
      bboxOfPoints, minChain, maxChain, min_def, max_def, flipStep,
      normScale, normTx, normTy, bboxW, bboxH, translateSeg, scaleSeg,
      mapSeg, scalePoint, translatePoint],
   by simp [continuousSubpaths, splitRuns, splitRunsCore],
   by norm_num [pathPoint, segPoint],
   json_samples_in_unit_square [Segment.line (0, 0) (2, 1)]
     [Segment.line (0, 3) (4, 1)] 4 2 0 1 (by norm_num)
     (by norm_num [normalizeGlyphPath, getGlobalBbox, allPoints, bpoints,
        bboxOfPoints, minChain, maxChain, min_def, max_def, flipStep,
        normScale, normTx, normTy, bboxW, bboxH, translateSeg, scaleSeg,
        mapSeg, scalePoint, translatePoint])
     [Segment.line (0, 3) (4, 1)]
     (by simp [continuousSubpaths, splitRuns, splitRunsCore])
     [1] 2 1 (by norm_num) (by norm_num) ((4 : ℚ), (1 : ℚ))
     (by norm_num [pathPoint, segPoint])⟩

/-! ### Claim C7: arrow-head synthesis (dotted.py lines 22-42)

`make_arrow` works on plain coordinate tuples with `math.atan2`,
`math.radians`, `math.cos`, `math.sin`; it is embedded over the reals.
The rounding to two decimals in the emitted strings
(`f"M {lx:.2f},{ly:.2f} L ..."`) is serialization, outside the
geometry. -/

/-- `math.atan2(y, x)`: the full-quadrant arctangent, equal to the
complex argument of `x + y*i` (with `atan2(0, 0) = 0`, as in Python). -/
noncomputable def atan2 (y x : ℝ) : ℝ := Complex.arg ⟨x, y⟩

/-- One arrow-wing subpath `M base L tip`. -/
structure ArrowSeg : Type where
  base : ℝ × ℝ
  tip : ℝ × ℝ

/-- `make_arrow(p0, p1, length, angle_deg)`: direction
`θ = atan2(y1 - y0, x1 - x0)`, half-angle `α = radians(angle_deg)`, and
two wings from `p1 - length*(cos(θ∓α), sin(θ∓α))` to `p1`. -/
noncomputable def makeArrow (p0 p1 : ℝ × ℝ) (length angleDeg : ℝ) :
    ArrowSeg × ArrowSeg :=
  let θ := atan2 (p1.2 - p0.2) (p1.1 - p0.1)
  let α := angleDeg * Real.pi / 180
  (⟨(p1.1 - length * Real.cos (θ - α), p1.2 - length * Real.sin (θ - α)), p1⟩,
   ⟨(p1.1 - length * Real.cos (θ + α), p1.2 - length * Real.sin (θ + α)), p1⟩)

/-- Euclidean distance in the plane. -/
noncomputable def dist2R (p q : ℝ × ℝ) : ℝ :=
  Real.sqrt ((p.1 - q.1) ^ 2 + (p.2 - q.2) ^ 2)

theorem dist2R_wing (c : ℝ × ℝ) (length φ : ℝ) (hlen : 0 ≤ length) :
    dist2R (c.1 - length * Real.cos φ, c.2 - length * Real.sin φ) c = length := by
  unfold dist2R
  have hpy := Real.sin_sq_add_cos_sq φ
  have harg : (c.1 - length * Real.cos φ - c.1) ^ 2
      + (c.2 - length * Real.sin φ - c.2) ^ 2 = length ^ 2 := by
    nlinarith [hpy]
  rw [harg, Real.sqrt_sq hlen]

theorem atan2_ten_zero : atan2 0 10 = 0 := by
  unfold atan2
  rw [show (⟨(10 : ℝ), (0 : ℝ)⟩ : ℂ) = ((10 : ℝ) : ℂ) from
    Complex.ext (by simp) (by simp)]
  exact Complex.arg_ofReal_of_nonneg (by norm_num)

/-- C7: both arrow wings terminate at `to`; their base points are at
distance exactly `length` from `to`, in the directions `θ - α` and
`θ + α` back from `to` (with `θ = atan2(to.y - from.y, to.x - from.x)`
and `α = radians(angle)`); and at the concrete input
`from = (0,0), to = (10,0), length = 5, angle = 30` the two wing bases
have equal x-coordinates and opposite y-coordinates. -/
theorem make_arrow_wings (p0 p1 : ℝ × ℝ) (length angleDeg : ℝ)
    (hne : p0 ≠ p1) (hlen : 0 < length) :
    (makeArrow p0 p1 length angleDeg).1.tip = p1 ∧
    (makeArrow p0 p1 length angleDeg).2.tip = p1 ∧
    dist2R (makeArrow p0 p1 length angleDeg).1.base p1 = length ∧
    dist2R (makeArrow p0 p1 length angleDeg).2.base p1 = length ∧
    (makeArrow p0 p1 length angleDeg).1.base =
      (p1.1 - length * Real.cos
          (atan2 (p1.2 - p0.2) (p1.1 - p0.1) - angleDeg * Real.pi / 180),
       p1.2 - length * Real.sin
          (atan2 (p1.2 - p0.2) (p1.1 - p0.1) - angleDeg * Real.pi / 180)) ∧
    (makeArrow p0 p1 length angleDeg).2.base =
      (p1.1 - length * Real.cos
          (atan2 (p1.2 - p0.2) (p1.1 - p0.1) + angleDeg * Real.pi / 180),
       p1.2 - length * Real.sin
          (atan2 (p1.2 - p0.2) (p1.1 - p0.1) + angleDeg * Real.pi / 180)) ∧
    (makeArrow (0, 0) (10, 0) 5 30).1.base.1 =
      (makeArrow (0, 0) (10, 0) 5 30).2.base.1 ∧
    (makeArrow (0, 0) (10, 0) 5 30).1.base.2 =
      -(makeArrow (0, 0) (10, 0) 5 30).2.base.2 := by
  have hθ0 : atan2 (((10, 0) : ℝ × ℝ).2 - ((0, 0) : ℝ × ℝ).2)
      (((10, 0) : ℝ × ℝ).1 - ((0, 0) : ℝ × ℝ).1) = 0 := by
    norm_num
    exact atan2_ten_zero
  refine ⟨rfl, rfl, dist2R_wing p1 length _ (le_of_lt hlen),
    dist2R_wing p1 length _ (le_of_lt hlen), rfl, rfl, ?_, ?_⟩
  · show ((10 : ℝ), (0 : ℝ)).1 - 5 * Real.cos
        (atan2 (((10, 0) : ℝ × ℝ).2 - ((0, 0) : ℝ × ℝ).2)
          (((10, 0) : ℝ × ℝ).1 - ((0, 0) : ℝ × ℝ).1) - 30 * Real.pi / 180) =
      ((10 : ℝ), (0 : ℝ)).1 - 5 * Real.cos
        (atan2 (((10, 0) : ℝ × ℝ).2 - ((0, 0) : ℝ × ℝ).2)
          (((10, 0) : ℝ × ℝ).1 - ((0, 0) : ℝ × ℝ).1) + 30 * Real.pi / 180)
    rw [hθ0]
    norm_num [Real.cos_neg]
  · show ((10 : ℝ), (0 : ℝ)).2 - 5 * Real.sin
        (atan2 (((10, 0) : ℝ × ℝ).2 - ((0, 0) : ℝ × ℝ).2)
          (((10, 0) : ℝ × ℝ).1 - ((0, 0) : ℝ × ℝ).1) - 30 * Real.pi / 180) =
      -(((10 : ℝ), (0 : ℝ)).2 - 5 * Real.sin
        (atan2 (((10, 0) : ℝ × ℝ).2 - ((0, 0) : ℝ × ℝ).2)
          (((10, 0) : ℝ × ℝ).1 - ((0, 0) : ℝ × ℝ).1) + 30 * Real.pi / 180))
    rw [hθ0]
    norm_num [Real.sin_neg]

/-- C7 witness: the arrow at `from = (0,0), to = (10,0), length = 5,
angle = 30 degrees`. -/
theorem make_arrow_wings_witness :
    ((0, 0) : ℝ × ℝ) ≠ (10, 0) ∧ (0 : ℝ) < 5 ∧
    (makeArrow (0, 0) (10, 0) 5 30).1.tip = (10, 0) ∧
    dist2R (makeArrow (0, 0) (10, 0) 5 30).1.base (10, 0) = 5 ∧
    (makeArrow (0, 0) (10, 0) 5 30).1.base.1 =
      (makeArrow (0, 0) (10, 0) 5 30).2.base.1 ∧
    (makeArrow (0, 0) (10, 0) 5 30).1.base.2 =
      -(makeArrow (0, 0) (10, 0) 5 30).2.base.2 := by
  have hne : ((0, 0) : ℝ × ℝ) ≠ (10, 0) := by
    intro hcontra
    have := congrArg Prod.fst hcontra
    norm_num at this
  have h := make_arrow_wings (0, 0) (10, 0) 5 30 hne (by norm_num)
  exact ⟨hne, by norm_num, h.1, h.2.2.1, h.2.2.2.2.2.2.1, h.2.2.2.2.2.2.2⟩

/-! ### Claim C8: circle synthesis (index.py lines 56-63)

The marker circle is emitted as the path string
`M x0+r,y0  A r,r 0 1,0 x0-r,y0  A r,r 0 1,0 x0+r,y0  Z`: two arc
commands with equal radii `r`, zero x-axis-rotation, large-arc flag 1
and sweep flag 0, between the diametral points `(x0 ± r, y0)`, closed
with `Z`.  The embedding keeps the exact pre-formatting coordinates (the
`.3f` rounding is serialization).  The meaning of an arc command is the
SVG 1.1 F.6.5 center parameterization, specialized here to equal radii
and zero rotation; `arcPointsSet` parameterizes the full circle the arc
lies on (the actual arc is the sub-range of angles between the endpoint
angles, a subset, which suffices for the distance property). -/

structure SvgArc : Type where
  src : ℝ × ℝ
  radius : ℝ
  largeArc : Bool
  sweep : Bool
  dst : ℝ × ℝ

/-- The two arc commands of the synthesized marker circle. -/
def buildCircleArcs (x0 y0 r : ℝ) : SvgArc × SvgArc :=
  (⟨(x0 + r, y0), r, true, false, (x0 - r, y0)⟩,
   ⟨(x0 - r, y0), r, true, false, (x0 + r, y0)⟩)

/-- Center of the circle an arc command lies on (SVG 1.1 F.6.5 with
`rx = ry = radius` and zero rotation). -/
noncomputable def arcCenter (a : SvgArc) : ℝ × ℝ :=
  let x1p := (a.src.1 - a.dst.1) / 2
  let y1p := (a.src.2 - a.dst.2) / 2
  let sgn : ℝ := if a.largeArc ≠ a.sweep then 1 else -1
  let co := sgn * Real.sqrt
    ((a.radius ^ 2 * a.radius ^ 2 - a.radius ^ 2 * y1p ^ 2
        - a.radius ^ 2 * x1p ^ 2) /
      (a.radius ^ 2 * y1p ^ 2 + a.radius ^ 2 * x1p ^ 2))
  (co * (a.radius * y1p / a.radius) + (a.src.1 + a.dst.1) / 2,
   co * (-(a.radius * x1p) / a.radius) + (a.src.2 + a.dst.2) / 2)

/-- The circle of the arc command, parameterized by angle. -/
def arcPointsSet (a : SvgArc) : Set (ℝ × ℝ) :=
  {p | ∃ φ : ℝ, p = ((arcCenter a).1 + a.radius * Real.cos φ,
                     (arcCenter a).2 + a.radius * Real.sin φ)}

theorem arcCenter_circle_fst (x0 y0 r : ℝ) :
    arcCenter (buildCircleArcs x0 y0 r).1 = (x0, y0) := by
  simp only [arcCenter, buildCircleArcs]
  norm_num

theorem arcCenter_circle_snd (x0 y0 r : ℝ) :
    arcCenter (buildCircleArcs x0 y0 r).2 = (x0, y0) := by
  simp only [arcCenter, buildCircleArcs]
  norm_num
  left
  have hx : (x0 - r - (x0 + r)) / 2 = -r := by ring
  rw [hx]
  have hz : r ^ 2 * r ^ 2 - r ^ 2 * (-r) ^ 2 = 0 := by ring
  rw [hz, zero_div, Real.sqrt_zero]

/-- C8: the synthesized circle consists of two arcs with shared
endpoints `(x0 ± r, y0)`, both with the large-arc flag set and the same
(zero) sweep flag, closing back to the move-to point; and every point of
the circles the two arcs lie on is at distance exactly `r` from
`(x0, y0)`. -/
theorem circle_two_arcs (x0 y0 r : ℝ) (hr : 0 < r) :
    (buildCircleArcs x0 y0 r).1.src = (x0 + r, y0) ∧
    (buildCircleArcs x0 y0 r).1.dst = (x0 - r, y0) ∧
    (buildCircleArcs x0 y0 r).2.src = (buildCircleArcs x0 y0 r).1.dst ∧
    (buildCircleArcs x0 y0 r).2.dst = (buildCircleArcs x0 y0 r).1.src ∧
    (buildCircleArcs x0 y0 r).1.largeArc = true ∧
    (buildCircleArcs x0 y0 r).2.largeArc = true ∧
    (buildCircleArcs x0 y0 r).1.sweep = (buildCircleArcs x0 y0 r).2.sweep ∧
    ∀ p : ℝ × ℝ,
      p ∈ arcPointsSet (buildCircleArcs x0 y0 r).1 ∪
        arcPointsSet (buildCircleArcs x0 y0 r).2 →
      dist2R p (x0, y0) = r := by
  refine ⟨rfl, rfl, rfl, rfl, rfl, rfl, rfl, ?_⟩
  intro p hp
  have hdist : ∀ φ : ℝ,
      dist2R (x0 + r * Real.cos φ, y0 + r * Real.sin φ) (x0, y0) = r := by
    intro φ
    unfold dist2R
    have hpy := Real.sin_sq_add_cos_sq φ
    have harg : (x0 + r * Real.cos φ - x0) ^ 2
        + (y0 + r * Real.sin φ - y0) ^ 2 = r ^ 2 := by
      nlinarith [hpy]
    rw [harg, Real.sqrt_sq (le_of_lt hr)]
  rcases hp with hp | hp
  · obtain ⟨φ, rfl⟩ := hp
    rw [arcCenter_circle_fst x0 y0 r]
    exact hdist φ
  · obtain ⟨φ, rfl⟩ := hp
    rw [arcCenter_circle_snd x0 y0 r]
    exact hdist φ

/-- C8 witness: the circle at center (0,0) with radius 5. -/
theorem circle_two_arcs_witness :
    (0 : ℝ) < 5 ∧
    (buildCircleArcs 0 0 5).1.src = (5, 0) ∧
    (buildCircleArcs 0 0 5).1.dst = (-5, 0) ∧
    (buildCircleArcs 0 0 5).1.largeArc = true ∧
    ∀ p : ℝ × ℝ,
      p ∈ arcPointsSet (buildCircleArcs 0 0 5).1 ∪
        arcPointsSet (buildCircleArcs 0 0 5).2 →
      dist2R p (0, 0) = 5 := by
  have h := circle_two_arcs 0 0 5 (by norm_num)
  refine ⟨by norm_num, ?_, ?_, h.2.2.2.2.1, h.2.2.2.2.2.2.2⟩
  · rw [h.1]
    norm_num
  · rw [h.2.1]
    norm_num

end LetterPaths
